import Mathlib

/- Verification of the quick-open search overlay (the FileBrowser component)
   of the sonet code editor: the fuzzy ranker `fuzzySearch`, the recursive
   directory indexer `crawl`, the per-directory listing cache used by
   `loadFiles`, the displayed-result selector `filteredFiles`, and the
   keyboard selection handler.  JS strings are modelled through their
   character sequences (`List Char`); the JS string methods `toLowerCase`,
   `startsWith`, `includes` and the emptiness test of `trim` are modelled by
   executable functions on char lists, since candidate names, paths and
   queries are only ever compared characterwise. -/

namespace Sonet

/-- JS `s.toLowerCase()`, characterwise, as the character sequence. -/
def lowerL (s : String) : List Char := s.toList.map Char.toLower

/-- JS `hay.includes(needle)`: `needle` occurs contiguously in `hay`.
    (`hay.startsWith(needle)` is `needle.isPrefixOf hay` from the library.) -/
def inclB (needle : List Char) : List Char → Bool
  | [] => needle.isEmpty
  | c :: t => needle.isPrefixOf (c :: t) || inclB needle t

/-- The sequential-character-bonus loop of `fuzzySearch`, translated from
    `let i=0; for(const c of name){ if(c===term[i]){s+=15;i++}
    if(i===term.length)break }`; it returns the total bonus added.  A JS
    out-of-range read `term[i]` is `undefined` and never equals a character,
    which the `term[i]? = some c` test captures. -/
def seqLoop (term : List Char) : List Char → Nat → Nat
  | [], _ => 0
  | c :: cs, i =>
    if term[i]? = some c then
      if i + 1 = term.length then 15 else 15 + seqLoop term cs (i + 1)
    else
      if i = term.length then 0 else seqLoop term cs i

/-- The sequential bonus counter in the words of the spec (§4.2) and claim
    C1: walk the candidate name left-to-right, and count each position whose
    character equals the next unconsumed query character, advancing the
    query cursor on each match and awarding nothing once the whole query is
    consumed. -/
def seqBonusSpec : List Char → List Char → Nat
  | [], _ => 0
  | _ :: _, [] => 0
  | c :: cs, q :: qs => if c = q then 1 + seqBonusSpec cs qs else seqBonusSpec cs (q :: qs)

/-- The TS union `'file' | 'folder'` of `FileItem.type`. -/
inductive FType where
  | file
  | folder
deriving DecidableEq, BEq, Repr

/-- `interface FileItem` of the file-browser source. -/
structure FileItem where
  name : String
  type : FType
  path : Option String := none
  size : Option Nat := none
  modified : Option String := none
deriving DecidableEq, Repr

/-- The per-candidate score accumulation of `fuzzySearch`:
    `let s=0; if(name===term)s+=900; if(name.startsWith(term))s+=500;
    if(name.includes(term))s+=250; if(path.includes(term))s+=120;` followed
    by the sequential-bonus loop, on the lowercased name, path and query. -/
def scoreOf (term name path : List Char) : Nat :=
  (if name = term then 900 else 0)
    + (if term.isPrefixOf name then 500 else 0)
    + (if inclB term name then 250 else 0)
    + (if inclB term path then 120 else 0)
    + seqLoop term name 0

/-- The score `fuzzySearch` computes for one candidate `f` against query
    `q`, with `name = f.name.toLowerCase()`, `path = (f.path||'').toLowerCase()`
    and `term = q.toLowerCase()`. -/
def itemScore (q : String) (f : FileItem) : Nat :=
  scoreOf (lowerL q) (lowerL f.name) (lowerL (f.path.getD ""))

/-- The §4.2 scoring formula written from the spec's words (claim C1): the
    sum, computed on the lowercased name N, path P and query Q, of 900 for
    an exact name match, 500 for name-starts-with, 250 for name-contains,
    120 for path-contains, and 15 per greedily matched query character. -/
def specScore (q : String) (f : FileItem) : Nat :=
  (if lowerL f.name = lowerL q then 900 else 0)
    + (if (lowerL q).isPrefixOf (lowerL f.name) then 500 else 0)
    + (if inclB (lowerL q) (lowerL f.name) then 250 else 0)
    + (if inclB (lowerL q) (lowerL (f.path.getD "")) then 120 else 0)
    + 15 * seqBonusSpec (lowerL f.name) (lowerL q)

/-- `items.map(f=>{…; return s>0?{f,s}:null}).filter(Boolean)`: every
    candidate paired with its score, zero-score candidates dropped. -/
def scoredList (q : String) (items : List FileItem) : List (FileItem × Nat) :=
  items.filterMap fun f => if 0 < itemScore q f then some (f, itemScore q f) else none

/-- Insertion into a descending-by-score list, after every entry of score
    greater than or equal to its own: the unique stable position. -/
def insertDesc (x : FileItem × Nat) : List (FileItem × Nat) → List (FileItem × Nat)
  | [] => [x]
  | y :: ys => if x.2 < y.2 then y :: insertDesc x ys else x :: y :: ys

/-- JS `Array.prototype.sort` with comparator `(a,b)=>b.s-a.s`: ECMAScript
    guarantees a stable sort, and a stable sort by a numeric key has a
    unique result, realised here by stable insertion sort. -/
def sortDesc : List (FileItem × Nat) → List (FileItem × Nat)
  | [] => []
  | x :: xs => insertDesc x (sortDesc xs)

/-- `fuzzySearch` from the file-browser source: score every candidate, drop
    the zero scores, sort stably by descending score, truncate to the first
    50, and strip the scores. -/
def fuzzySearch (q : String) (items : List FileItem) : List FileItem :=
  ((sortDesc (scoredList q items)).take 50).map Prod.fst

/-- JS `path.endsWith('/')`. -/
def endsWithSlash (s : String) : Bool := s.toList.getLast? == some '/'

/-- `path.endsWith('/') ? path+f.name : path+'/'+f.name` from `crawl`. -/
def joinPath (parent name : String) : String :=
  if endsWithSlash parent then parent ++ name else parent ++ "/" ++ name

/-- `const filePath = f.path || (…)`: JS `||` falls through both when
    `f.path` is absent and when it is the (falsy) empty string. -/
def childPath (f : FileItem) (parent : String) : String :=
  match f.path with
  | some p => if p = "" then joinPath parent f.name else p
  | none => joinPath parent f.name

/-- JS `f.name.startsWith('.')`. -/
def startsWithDot (s : String) : Bool := s.toList.head? == some '.'

/-- The folder-descent guard of `crawl`: `f.type==="folder" &&
    !f.name.startsWith('.') && f.name!=="node_modules" &&
    f.name!=="build" && f.name!=="dist"`. -/
def descendOK (f : FileItem) : Bool :=
  f.type == FType.folder && !(startsWithDot f.name)
    && f.name != "node_modules" && f.name != "build" && f.name != "dist"

/-- The `for(const f of list)` body of `crawl`, with `rec` the recursive
    crawl at one smaller budget: a file entry is collected with its resolved
    path, a folder entry passing the descent guard contributes its crawled
    subtree, and any other entry contributes nothing. -/
def crawlChildren (rec : String → List FileItem) (parent : String) : List FileItem → List FileItem
  | [] => []
  | f :: rest =>
    (if f.type == FType.file then [{ f with path := some (childPath f parent) }]
     else if descendOK f then rec (childPath f parent)
     else [])
      ++ crawlChildren rec parent rest

/-- `crawl` from `indexAllFiles`, carrying the remaining recursion budget
    `b = 7 - depth` in place of the depth counter (the entry check
    `if(depth>6) return []` is exactly `b = 0`): list the directory — a
    failed listing is swallowed, yielding no entries for the branch — then
    fold over the entries. -/
def crawlAux (fs : String → Option (List FileItem)) : Nat → String → List FileItem
  | 0, _ => []
  | b + 1, path =>
    match fs path with
    | none => []
    | some list => crawlChildren (crawlAux fs b) path list

/-- `crawl(path, depth)` itself; `indexAllFiles` invokes it as
    `crawl(root)`, i.e. `crawl fs root 0`. -/
def crawl (fs : String → Option (List FileItem)) (path : String) (depth : Nat) : List FileItem :=
  crawlAux fs (7 - depth) path

/-- The folder recursions of the `crawl` loop, for the listing-call trace:
    only guard-passing folder entries recurse. -/
def callsChildren (rec : String → List (String × Nat)) (parent : String) : List FileItem → List (String × Nat)
  | [] => []
  | f :: rest =>
    (if descendOK f then rec (childPath f parent) else []) ++ callsChildren rec parent rest

/-- The trace of `onListFiles` calls `crawl` issues, each tagged with the
    depth of the listed directory below the root: a directory reached with
    budget `b+1` is listed exactly once (also when the listing fails), and
    its guard-passing folder entries are visited one level deeper with
    budget `b`; budget `0` (`depth > 6`) returns before listing. -/
def crawlCalls (fs : String → Option (List FileItem)) : Nat → String → Nat → List (String × Nat)
  | 0, _, _ => []
  | b + 1, path, depth =>
    (path, depth) ::
      (match fs path with
       | none => []
       | some list => callsChildren (fun p => crawlCalls fs b p (depth + 1)) path list)

/-- The folder recursions of the `crawl` loop, for the descent trace: each
    guard-passing folder entry records its name and recurses. -/
def descChildren (rec : String → List String) (parent : String) : List FileItem → List String
  | [] => []
  | f :: rest =>
    (if descendOK f then f.name :: rec (childPath f parent) else []) ++ descChildren rec parent rest

/-- The names of the folder entries `crawl` descends into (i.e. recurses
    on), across the whole traversal. -/
def crawlDescents (fs : String → Option (List FileItem)) : Nat → String → List String
  | 0, _ => []
  | b + 1, path =>
    match fs path with
    | none => []
    | some list => descChildren (fun p => crawlDescents fs b p) path list

/-- Point update of a listing capability: `override fs p v` answers `v` at
    `p` and behaves as `fs` everywhere else. -/
def override (fs : String → Option (List FileItem)) (p : String) (v : Option (List FileItem)) : String → Option (List FileItem) :=
  fun q => if q = p then v else fs q

/-- `!query.trim()`: the query is empty after trimming, i.e. every
    character is whitespace. -/
def trimmedEmpty (s : String) : Bool := s.toList.all Char.isWhitespace

/-- `filteredFiles` from the source: an empty-after-trim query shows the
    first 200 raw entries; otherwise the indexed corpus is ranked when it is
    non-empty, else the current listing is filtered by case-insensitive
    name-substring match. -/
def filteredFiles (query : String) (files allFiles : List FileItem) : List FileItem :=
  if trimmedEmpty query then files.take 200
  else if allFiles.length ≠ 0 then fuzzySearch query allFiles
  else files.filter fun f => inclB (lowerL query) (lowerL f.name)

/-- The keys `handleKey` distinguishes. -/
inductive Key where
  | arrowDown
  | arrowUp
  | enter
  | escape
deriving DecidableEq, Repr

/-- The selection-cursor updates of `handleKey`: ArrowDown sets
    `Math.min(selectedIndex+1, filteredFiles.length-1)`, ArrowUp sets
    `Math.max(selectedIndex-1, 0)`, and the remaining keys leave the cursor
    unchanged.  JS numbers are modelled as integers: `length-1` is `-1` on
    an empty collection. -/
def handleKeySel (k : Key) (selectedIndex : Int) (len : Nat) : Int :=
  match k with
  | Key.arrowDown => min (selectedIndex + 1) ((len : Int) - 1)
  | Key.arrowUp => max (selectedIndex - 1) 0
  | _ => selectedIndex

/-- The `Map`-backed per-directory listing cache, as an association list
    (most recent entry first); `cacheGet` answers both `cache.has` and
    `cache.get`. -/
def cacheGet : List (String × List FileItem) → String → Option (List FileItem)
  | [], _ => none
  | (k, v) :: rest, p => if k = p then some v else cacheGet rest p

/-- `cache.set(path, list)` (only ever called on a missing key). -/
def cacheSet (c : List (String × List FileItem)) (p : String) (v : List FileItem) : List (String × List FileItem) :=
  (p, v) :: c

/-- Outcome of one `loadFiles(path)` call: the listing displayed, the cache
    afterwards, and how many underlying `onListFiles` calls were issued. -/
structure LoadResult where
  files : List FileItem
  cache : List (String × List FileItem)
  calls : Nat
deriving DecidableEq, Repr

/-- `loadFiles` from the source: a cache hit displays the cached sequence
    with no underlying call; a miss issues one `onListFiles` call, caching
    and displaying its result; a failed call displays an empty listing and
    leaves the cache untouched (the `catch` branch). -/
def loadFiles (fs : String → Option (List FileItem)) (c : List (String × List FileItem)) (path : String) : LoadResult :=
  match cacheGet c path with
  | some l => ⟨l, c, 0⟩
  | none =>
    match fs path with
    | some l => ⟨l, cacheSet c path l, 1⟩
    | none => ⟨[], c, 1⟩

/-- The corpus of the spec's §8 `readme` scenario: root `/proj` holding
    `Readme.md`, `readme-old.md` and a folder `src`, which holds `main.go`. -/
def fsProj : String → Option (List FileItem)
  | "/proj" => some [⟨"Readme.md", FType.file, none, none, none⟩,
                     ⟨"readme-old.md", FType.file, none, none, none⟩,
                     ⟨"src", FType.folder, none, none, none⟩]
  | "/proj/src" => some [⟨"main.go", FType.file, none, none, none⟩]
  | _ => none

/- ------------------------------------------------------------------ -/
/- Lemmas about the sequential-character bonus.                        -/
/- ------------------------------------------------------------------ -/

theorem seqBonusSpec_nil (n : List Char) : seqBonusSpec n [] = 0 := by
  cases n <;> simp [seqBonusSpec]

theorem seqBonusSpec_le (n : List Char) : ∀ t : List Char, seqBonusSpec n t ≤ t.length := by
  induction n with
  | nil => intro t; simp [seqBonusSpec]
  | cons c cs ih =>
    intro t
    match t with
    | [] => simp [seqBonusSpec]
    | q :: qs =>
      simp only [seqBonusSpec, List.length_cons]
      split
      · have := ih qs; omega
      · have := ih (q :: qs); simp only [List.length_cons] at this; omega

theorem seqBonusSpec_self (l : List Char) : seqBonusSpec l l = l.length := by
  induction l with
  | nil => simp [seqBonusSpec]
  | cons c cs ih =>
    have h : seqBonusSpec (c :: cs) (c :: cs) = 1 + seqBonusSpec cs cs := by
      simp [seqBonusSpec]
    rw [h, ih, List.length_cons]
    omega

theorem seqLoop_eq (term : List Char) :
    ∀ (n : List Char) (i : Nat), i ≤ term.length →
      seqLoop term n i = 15 * seqBonusSpec n (term.drop i) := by
  intro n
  induction n with
  | nil => intro i _; simp [seqLoop, seqBonusSpec]
  | cons c cs ih =>
    intro i hi
    by_cases h : term[i]? = some c
    · obtain ⟨hlt, hv⟩ := List.getElem?_eq_some_iff.mp h
      have hdrop : term.drop i = c :: term.drop (i + 1) := by
        rw [List.drop_eq_getElem_cons hlt, hv]
      by_cases he : i + 1 = term.length
      · have hd2 : term.drop (i + 1) = [] := by rw [he, List.drop_length]
        have hs : seqBonusSpec (c :: cs) (term.drop i) = 1 := by
          rw [hdrop, hd2]
          simp [seqBonusSpec, seqBonusSpec_nil]
        have hl : seqLoop term (c :: cs) i = 15 := by
          simp only [seqLoop]
          rw [if_pos h, if_pos he]
        rw [hl, hs]
      · have hs : seqBonusSpec (c :: cs) (term.drop i) = 1 + seqBonusSpec cs (term.drop (i + 1)) := by
          rw [hdrop]
          simp [seqBonusSpec]
        have hl : seqLoop term (c :: cs) i = 15 + seqLoop term cs (i + 1) := by
          simp only [seqLoop]
          rw [if_pos h, if_neg he]
        rw [hl, hs, ih (i + 1) hlt]
        ring
    · by_cases he : i = term.length
      · have hl : seqLoop term (c :: cs) i = 0 := by
          simp only [seqLoop]
          rw [if_neg h, if_pos he]
        have hs : seqBonusSpec (c :: cs) (term.drop i) = 0 := by
          rw [he, List.drop_length]
          exact seqBonusSpec_nil _
        rw [hl, hs]
      · have hlt : i < term.length := Nat.lt_of_le_of_ne hi he
        have hdrop : term.drop i = term[i] :: term.drop (i + 1) :=
          List.drop_eq_getElem_cons hlt
        have hne : ¬ c = term[i] := fun hcv =>
          h (List.getElem?_eq_some_iff.mpr ⟨hlt, hcv.symm⟩)
        have hl : seqLoop term (c :: cs) i = seqLoop term cs i := by
          simp only [seqLoop]
          rw [if_neg h, if_neg he]
        have hs : seqBonusSpec (c :: cs) (term.drop i) = seqBonusSpec cs (term.drop i) := by
          rw [hdrop]
          simp [seqBonusSpec, hne]
        rw [hl, hs, ih i hi]

theorem itemScore_eq_specScore (q : String) (f : FileItem) : itemScore q f = specScore q f := by
  unfold itemScore specScore scoreOf
  rw [seqLoop_eq (lowerL q) (lowerL f.name) 0 (Nat.zero_le _), List.drop_zero]

/- ------------------------------------------------------------------ -/
/- Score bounds for exact and non-exact name matches.                  -/
/- ------------------------------------------------------------------ -/

theorem isPrefixOf_self (l : List Char) : l.isPrefixOf l = true :=
  List.isPrefixOf_iff_prefix.mpr (List.prefix_refl l)

theorem inclB_self (l : List Char) : inclB l l = true := by
  cases l with
  | nil => rfl
  | cons c t => simp [inclB, isPrefixOf_self]

theorem score_exact_ge (term path : List Char) :
    1650 + 15 * term.length ≤ scoreOf term term path := by
  unfold scoreOf
  rw [if_pos rfl, isPrefixOf_self, inclB_self, if_pos rfl, if_pos rfl,
    seqLoop_eq term term 0 (Nat.zero_le _), List.drop_zero, seqBonusSpec_self]
  split <;> omega

theorem score_nonexact_le (term name path : List Char) (h : name ≠ term) :
    scoreOf term name path ≤ 870 + 15 * term.length := by
  unfold scoreOf
  rw [if_neg h, seqLoop_eq term name 0 (Nat.zero_le _), List.drop_zero]
  have h1 := seqBonusSpec_le name term
  have h2 : (if term.isPrefixOf name then 500 else 0) ≤ 500 := by split <;> omega
  have h3 : (if inclB term name then 250 else 0) ≤ 250 := by split <;> omega
  have h4 : (if inclB term path then 120 else 0) ≤ 120 := by split <;> omega
  omega

/-- C1: the Ranker's per-candidate score equals the additive sum of the
    exact-match (900), starts-with (500), name-contains (250),
    path-contains (120) and 15-per-sequential-match components, computed
    case-insensitively on the lowercased name, path and query. -/
theorem ranker_score_formula (q : String) (f : FileItem) : itemScore q f = specScore q f :=
  itemScore_eq_specScore q f

/- ------------------------------------------------------------------ -/
/- Lemmas about the stable descending sort and the scored list.        -/
/- ------------------------------------------------------------------ -/

theorem mem_insertDesc (x a : FileItem × Nat) (l : List (FileItem × Nat)) :
    a ∈ insertDesc x l ↔ a = x ∨ a ∈ l := by
  induction l with
  | nil => simp [insertDesc]
  | cons y ys ih =>
    simp only [insertDesc]
    split
    · simp only [List.mem_cons, ih]
      tauto
    · simp [List.mem_cons]

theorem mem_sortDesc (a : FileItem × Nat) (l : List (FileItem × Nat)) :
    a ∈ sortDesc l ↔ a ∈ l := by
  induction l with
  | nil => simp [sortDesc]
  | cons x xs ih =>
    simp [sortDesc, mem_insertDesc, ih]

theorem insertDesc_pairwise (x : FileItem × Nat) (l : List (FileItem × Nat))
    (h : l.Pairwise fun a b => b.2 ≤ a.2) :
    (insertDesc x l).Pairwise fun a b => b.2 ≤ a.2 := by
  induction l with
  | nil => simp [insertDesc]
  | cons y ys ih =>
    obtain ⟨hy, hys⟩ := List.pairwise_cons.mp h
    simp only [insertDesc]
    split
    · rename_i hlt
      refine List.pairwise_cons.mpr ⟨?_, ih hys⟩
      intro z hz
      rcases (mem_insertDesc x z ys).mp hz with rfl | hz'
      · exact Nat.le_of_lt hlt
      · exact hy z hz'
    · rename_i hge
      refine List.pairwise_cons.mpr ⟨?_, h⟩
      intro z hz
      rcases List.mem_cons.mp hz with rfl | hz'
      · exact Nat.le_of_not_lt hge
      · exact Nat.le_trans (hy z hz') (Nat.le_of_not_lt hge)

theorem sortDesc_pairwise (l : List (FileItem × Nat)) :
    (sortDesc l).Pairwise fun a b => b.2 ≤ a.2 := by
  induction l with
  | nil => simp [sortDesc]
  | cons x xs ih => exact insertDesc_pairwise x (sortDesc xs) ih

theorem insertDesc_filter_pos (x : FileItem × Nat) (l : List (FileItem × Nat)) (v : Nat)
    (hx : x.2 = v) :
    (insertDesc x l).filter (fun p => p.2 == v) = x :: l.filter (fun p => p.2 == v) := by
  induction l with
  | nil => simp [insertDesc, List.filter_cons, hx]
  | cons y ys ih =>
    simp only [insertDesc]
    split
    · rename_i hlt
      have hy : ¬ (y.2 == v) = true := by
        simp only [beq_iff_eq]
        omega
      rw [@List.filter_cons_of_neg _ (fun p => p.2 == v) y (insertDesc x ys) hy, ih,
        @List.filter_cons_of_neg _ (fun p => p.2 == v) y ys hy]
    · rw [@List.filter_cons_of_pos _ (fun p => p.2 == v) x (y :: ys) (by simp [hx])]

theorem insertDesc_filter_neg (x : FileItem × Nat) (l : List (FileItem × Nat)) (v : Nat)
    (hx : x.2 ≠ v) :
    (insertDesc x l).filter (fun p => p.2 == v) = l.filter (fun p => p.2 == v) := by
  have hxb : (x.2 == v) = false := by simp [hx]
  induction l with
  | nil => simp [insertDesc, List.filter_cons, hxb]
  | cons y ys ih =>
    simp only [insertDesc]
    split
    · simp [List.filter_cons, ih]
    · simp [List.filter_cons, hxb]

theorem sortDesc_filter (l : List (FileItem × Nat)) (v : Nat) :
    (sortDesc l).filter (fun p => p.2 == v) = l.filter (fun p => p.2 == v) := by
  induction l with
  | nil => simp [sortDesc]
  | cons x xs ih =>
    by_cases hx : x.2 = v
    · rw [sortDesc, insertDesc_filter_pos x (sortDesc xs) v hx, ih,
        List.filter_cons, if_pos (by simp [hx])]
    · rw [sortDesc, insertDesc_filter_neg x (sortDesc xs) v hx, ih,
        List.filter_cons, if_neg (by simp [hx])]

theorem scoredList_eq (q : String) (items : List FileItem) :
    scoredList q items
      = (items.filter fun f => decide (0 < itemScore q f)).map fun f => (f, itemScore q f) := by
  induction items with
  | nil => simp [scoredList]
  | cons f fs ih =>
    by_cases h : 0 < itemScore q f
    · simp only [scoredList, List.filterMap_cons, if_pos h, List.filter_cons,
        decide_eq_true h, if_pos rfl, List.map_cons]
      exact congrArg _ ih
    · simp only [scoredList, List.filterMap_cons, if_neg h, List.filter_cons]
      rw [if_neg (by simp [h])]
      exact ih

theorem mem_scoredList (q : String) (items : List FileItem) (pr : FileItem × Nat)
    (h : pr ∈ scoredList q items) :
    pr.2 = itemScore q pr.1 ∧ 0 < pr.2 ∧ pr.1 ∈ items := by
  rw [scoredList_eq] at h
  obtain ⟨f, hf, rfl⟩ := List.mem_map.mp h
  obtain ⟨hmem, hpos⟩ := List.mem_filter.mp hf
  exact ⟨rfl, of_decide_eq_true hpos, hmem⟩

theorem mem_sorted_scored (q : String) (items : List FileItem) (pr : FileItem × Nat)
    (h : pr ∈ (sortDesc (scoredList q items)).take 50) :
    pr.2 = itemScore q pr.1 ∧ 0 < pr.2 ∧ pr.1 ∈ items :=
  mem_scoredList q items pr
    ((mem_sortDesc pr _).mp ((List.take_sublist 50 _).subset h))

/- ------------------------------------------------------------------ -/
/- Claims C2, C3, C4, C5 about the Ranker's output.                    -/
/- ------------------------------------------------------------------ -/

/-- C2: in the Ranker's output, every candidate whose lowercased name
    equals the lowercased query (an exact name match) appears at or above
    every non-exact candidate: no exact match sits below a non-exact one,
    i.e. whatever sits above an exact match is itself exact. -/
theorem exact_above_nonexact (q : String) (items : List FileItem) (i j : Nat)
    (hij : i < j) (hj : j < (fuzzySearch q items).length)
    (hexact : lowerL ((fuzzySearch q items).get ⟨j, hj⟩).name = lowerL q) :
    lowerL ((fuzzySearch q items).get ⟨i, Nat.lt_trans hij hj⟩).name = lowerL q := by
  by_contra hne
  set l50 := (sortDesc (scoredList q items)).take 50 with hl50
  have hlen : (fuzzySearch q items).length = l50.length := by
    simp [fuzzySearch, hl50]
  have hi' : i < l50.length := hlen ▸ Nat.lt_trans hij hj
  have hj' : j < l50.length := hlen ▸ hj
  have hgeti : (fuzzySearch q items).get ⟨i, Nat.lt_trans hij hj⟩ = (l50.get ⟨i, hi'⟩).1 := by
    simp [fuzzySearch, hl50, List.get_map]
  have hgetj : (fuzzySearch q items).get ⟨j, hj⟩ = (l50.get ⟨j, hj'⟩).1 := by
    simp [fuzzySearch, hl50, List.get_map]
  have hpw : l50.Pairwise fun a b => b.2 ≤ a.2 :=
    List.Pairwise.sublist (List.take_sublist 50 _) (sortDesc_pairwise (scoredList q items))
  have horder : (l50.get ⟨j, hj'⟩).2 ≤ (l50.get ⟨i, hi'⟩).2 :=
    List.pairwise_iff_get.mp hpw ⟨i, hi'⟩ ⟨j, hj'⟩ hij
  obtain ⟨hsi, _, _⟩ := mem_sorted_scored q items _ (List.get_mem l50 i hi')
  obtain ⟨hsj, _, _⟩ := mem_sorted_scored q items _ (List.get_mem l50 j hj')
  rw [hgeti] at hne
  rw [hgetj] at hexact
  have hj_ge : 1650 + 15 * (lowerL q).length ≤ (l50.get ⟨j, hj'⟩).2 := by
    rw [hsj]
    unfold itemScore
    rw [← hexact]
    exact score_exact_ge _ _
  have hi_le : (l50.get ⟨i, hi'⟩).2 ≤ 870 + 15 * (lowerL q).length := by
    rw [hsi]
    exact score_nonexact_le _ _ _ hne
  omega

/-- Closed witness for C2: two identical exact-match candidates; the entry
    above the exact match at position 1 is itself exact. -/
theorem exact_above_nonexact_witness :
    lowerL ((fuzzySearch "a" [⟨"a", FType.file, none, none, none⟩,
      ⟨"a", FType.file, none, none, none⟩]).get ⟨0, by decide⟩).name = lowerL "a" :=
  exact_above_nonexact "a"
    [⟨"a", FType.file, none, none, none⟩, ⟨"a", FType.file, none, none, none⟩]
    0 1 (by decide) (by decide) (by decide)

/-- C3: every entry of the Ranker's output has a strictly positive score
    under the §4.2 scoring function; zero-score candidates never appear. -/
theorem ranker_positive (q : String) (items : List FileItem) (f : FileItem)
    (hf : f ∈ fuzzySearch q items) : 0 < specScore q f := by
  obtain ⟨pr, hpr, rfl⟩ := List.mem_map.mp hf
  obtain ⟨hs, hpos, _⟩ := mem_sorted_scored q items pr hpr
  rw [← itemScore_eq_specScore, ← hs]
  exact hpos

/-- Closed witness for C3: the sole candidate of a singleton corpus appears
    and indeed has positive score. -/
theorem ranker_positive_witness :
    0 < specScore "a" ⟨"a", FType.file, none, none, none⟩ :=
  ranker_positive "a" [⟨"a", FType.file, none, none, none⟩]
    ⟨"a", FType.file, none, none, none⟩ (by decide)

/-- C4: the descending sort is stable — for every score value `v`, the
    candidates of score `v`, read off the Ranker's output in order, form a
    sublist of the input collection, so any two equal-score candidates
    appear in the output in their input relative order. -/
theorem ranker_stable (q : String) (items : List FileItem) (v : Nat) :
    ((fuzzySearch q items).filter fun f => itemScore q f == v).Sublist items := by
  unfold fuzzySearch
  rw [List.filter_map]
  have hcongr : ((sortDesc (scoredList q items)).take 50).filter
        ((fun f => itemScore q f == v) ∘ Prod.fst)
      = ((sortDesc (scoredList q items)).take 50).filter (fun p => p.2 == v) := by
    apply List.filter_congr
    intro pr hpr
    obtain ⟨hs, _, _⟩ := mem_sorted_scored q items pr hpr
    simp [Function.comp, hs]
  rw [hcongr]
  have h1 : (((sortDesc (scoredList q items)).take 50).filter fun p => p.2 == v).Sublist
      ((sortDesc (scoredList q items)).filter fun p => p.2 == v) :=
    (List.take_sublist 50 _).filter _
  rw [sortDesc_filter] at h1
  have h2 : ((scoredList q items).filter fun p => p.2 == v).Sublist (scoredList q items) :=
    List.filter_sublist _
  have h3 := (h1.trans h2).map Prod.fst
  have hmapid : ∀ l : List FileItem, (l.map fun f => (f, itemScore q f)).map Prod.fst = l := by
    intro l
    induction l with
    | nil => rfl
    | cons a as ih => simp [ih]
  have h4 : (scoredList q items).map Prod.fst
      = items.filter fun f => decide (0 < itemScore q f) := by
    rw [scoredList_eq, hmapid]
  rw [h4] at h3
  exact h3.trans (List.filter_sublist items)

/-- C5: the §8 `readme` scenario — indexing `/proj` (files `Readme.md`,
    `readme-old.md`, folder `src` holding `main.go`) and ranking the corpus
    for the query `readme` yields exactly `Readme.md` above
    `readme-old.md`; `main.go` scores 0 and is excluded. -/
theorem scenario_readme :
    fuzzySearch "readme" (crawl fsProj "/proj" 0)
      = [⟨"Readme.md", FType.file, some "/proj/Readme.md", none, none⟩,
         ⟨"readme-old.md", FType.file, some "/proj/readme-old.md", none, none⟩] := by
  decide

/- ------------------------------------------------------------------ -/
/- Claims C6 and C7 about the Indexer.                                 -/
/- ------------------------------------------------------------------ -/

theorem crawlCalls_depth (fs : String → Option (List FileItem)) :
    ∀ (b : Nat) (path : String) (d : Nat) (pd : String × Nat),
      pd ∈ crawlCalls fs b path d → pd.2 < d + b := by
  intro b
  induction b with
  | zero => intro path d pd h; simp [crawlCalls] at h
  | succ b ih =>
    intro path d pd h
    simp only [crawlCalls] at h
    rcases List.mem_cons.mp h with rfl | htail
    · simp only []
      omega
    · have haux : ∀ l : List FileItem,
          pd ∈ callsChildren (fun p => crawlCalls fs b p (d + 1)) path l → pd.2 < d + 1 + b := by
        intro l
        induction l with
        | nil => intro hx; simp [callsChildren] at hx
        | cons f rest ihl =>
          intro hx
          simp only [callsChildren] at hx
          rcases List.mem_append.mp hx with hleft | hright
          · by_cases hd : descendOK f = true
            · rw [if_pos hd] at hleft
              exact ih (childPath f path) (d + 1) pd hleft
            · rw [if_neg hd] at hleft
              simp at hleft
          · exact ihl hright
      cases hfs : fs path with
      | none =>
        rw [hfs] at htail
        simp at htail
      | some list =>
        rw [hfs] at htail
        have := haux list htail
        omega

theorem crawlDescents_ok (fs : String → Option (List FileItem)) :
    ∀ (b : Nat) (path : String) (n : String),
      n ∈ crawlDescents fs b path →
      startsWithDot n = false ∧ n ≠ "node_modules" ∧ n ≠ "build" ∧ n ≠ "dist" := by
  intro b
  induction b with
  | zero => intro path n h; simp [crawlDescents] at h
  | succ b ih =>
    intro path n h
    simp only [crawlDescents] at h
    cases hfs : fs path with
    | none =>
      rw [hfs] at h
      simp at h
    | some list =>
      rw [hfs] at h
      have haux : ∀ l : List FileItem,
          n ∈ descChildren (fun p => crawlDescents fs b p) path l →
          startsWithDot n = false ∧ n ≠ "node_modules" ∧ n ≠ "build" ∧ n ≠ "dist" := by
        intro l
        induction l with
        | nil => intro hx; simp [descChildren] at hx
        | cons f rest ihl =>
          intro hx
          simp only [descChildren] at hx
          rcases List.mem_append.mp hx with hleft | hright
          · by_cases hd : descendOK f = true
            · rw [if_pos hd] at hleft
              rcases List.mem_cons.mp hleft with rfl | hsub
              · unfold descendOK at hd
                simp only [Bool.and_eq_true, bne_iff_ne, ne_eq, Bool.not_eq_true'] at hd
                exact ⟨hd.1.1.1.2, hd.1.1.2, hd.1.2, hd.2⟩
              · exact ih (childPath f path) n hsub
            · rw [if_neg hd] at hleft
              simp at hleft
          · exact ihl hright
      exact haux list h

/-- C6: an indexing pass from `root` lists only directories at depth at
    most 6 below the root, and every folder entry it descends into has a
    name that does not start with `.` and is none of `node_modules`,
    `build`, `dist`. -/
theorem indexer_bounded (fs : String → Option (List FileItem)) (root : String) :
    (∀ pd ∈ crawlCalls fs 7 root 0, pd.2 ≤ 6) ∧
    (∀ n ∈ crawlDescents fs 7 root,
      startsWithDot n = false ∧ n ≠ "node_modules" ∧ n ≠ "build" ∧ n ≠ "dist") := by
  constructor
  · intro pd h
    have := crawlCalls_depth fs 7 root 0 pd h
    omega
  · intro n h
    exact crawlDescents_ok fs 7 root n h

/-- Closed witness for C6: a root with one real subfolder `sub`; the listing
    call for it is at depth 1 ≤ 6 and its name passes the ignore checks. -/
theorem indexer_bounded_witness :
    ((("/r/sub", 1) : String × Nat).2 ≤ 6) ∧
    (startsWithDot "sub" = false ∧ "sub" ≠ "node_modules"
      ∧ "sub" ≠ "build" ∧ "sub" ≠ "dist") := by
  constructor
  · exact (indexer_bounded
      (fun p => if p = "/r" then some [⟨"sub", FType.folder, none, none, none⟩] else none)
      "/r").1 ("/r/sub", 1) (by decide)
  · exact (indexer_bounded
      (fun p => if p = "/r" then some [⟨"sub", FType.folder, none, none, none⟩] else none)
      "/r").2 "sub" (by decide)

theorem crawlChildren_congr (r1 r2 : String → List FileItem) (parent : String)
    (h : ∀ s, r1 s = r2 s) :
    ∀ l : List FileItem, crawlChildren r1 parent l = crawlChildren r2 parent l := by
  intro l
  induction l with
  | nil => rfl
  | cons f rest ih => simp only [crawlChildren, ih, h]

/-- C7: a listing failure is swallowed and scoped to its branch — a failing
    directory contributes no entries, and an index run in which some
    directory `p` fails is identical to one in which `p` is simply empty,
    so every file collected from the other subtrees is still returned. -/
theorem crawl_failure_swallowed (fs : String → Option (List FileItem)) (b : Nat) (p : String) :
    (fs p = none → crawlAux fs (b + 1) p = []) ∧
    (∀ (b' : Nat) (root : String),
      crawlAux (override fs p none) b' root = crawlAux (override fs p (some [])) b' root) := by
  constructor
  · intro h
    simp [crawlAux, h]
  · intro b'
    induction b' with
    | zero => intro root; rfl
    | succ b' ih =>
      intro root
      by_cases hr : root = p
      · subst hr
        have h1 : override fs root none root = none := by simp [override]
        have h2 : override fs root (some []) root = some [] := by simp [override]
        simp [crawlAux, h1, h2, crawlChildren]
      · have h1 : override fs p none root = fs root := by simp [override, hr]
        have h2 : override fs p (some []) root = fs root := by simp [override, hr]
        simp only [crawlAux, h1, h2]
        cases hfs : fs root with
        | none => rfl
        | some list => exact crawlChildren_congr _ _ root (fun s => ih s) list

/-- Closed witness for C7: a capability whose every listing fails yields the
    empty index, and failing at `/x` is the same as `/x` being empty. -/
theorem crawl_failure_swallowed_witness :
    crawlAux (fun _ => none) 1 "/x" = []
    ∧ crawlAux (override (fun _ => none) "/x" none) 3 "/y"
        = crawlAux (override (fun _ => none) "/x" (some [])) 3 "/y" :=
  ⟨(crawl_failure_swallowed (fun _ => none) 0 "/x").1 rfl,
   (crawl_failure_swallowed (fun _ => none) 0 "/x").2 3 "/y"⟩

/- ------------------------------------------------------------------ -/
/- Claim C8 about the selection cursor.                                -/
/- ------------------------------------------------------------------ -/

/-- C8 as stated is false on the code: with 3 displayed results and prior
    selection value 5, ArrowUp sets the cursor to `max(5-1,0) = 4`, outside
    `[0, 2]` (the code clamps each arrow key on one side only). -/
theorem selection_clamp_cex :
    ¬ (0 ≤ handleKeySel Key.arrowUp 5 3 ∧ handleKeySel Key.arrowUp 5 3 ≤ (3 : Int) - 1) := by
  decide

/-- C8 amended: provided the displayed collection is non-empty and the prior
    selection already lies within `[0, length-1]`, any Arrow-down or
    Arrow-up event leaves the cursor within `[0, length-1]`. -/
theorem selection_clamp_amended (k : Key) (i : Int) (len : Nat)
    (hk : k = Key.arrowDown ∨ k = Key.arrowUp) (hlen : 0 < len)
    (h0 : 0 ≤ i) (h1 : i ≤ (len : Int) - 1) :
    0 ≤ handleKeySel k i len ∧ handleKeySel k i len ≤ (len : Int) - 1 := by
  have hl1 : (1 : Int) ≤ (len : Int) := by exact_mod_cast hlen
  rcases hk with rfl | rfl
  · simp only [handleKeySel]
    exact ⟨le_min (by omega) (by omega), min_le_right _ _⟩
  · simp only [handleKeySel]
    exact ⟨le_max_right _ _, max_le (by omega) (by omega)⟩

/-- Closed witness for the amended C8. -/
theorem selection_clamp_amended_witness :
    0 ≤ handleKeySel Key.arrowDown 0 1 ∧ handleKeySel Key.arrowDown 0 1 ≤ (1 : Int) - 1 :=
  selection_clamp_amended Key.arrowDown 0 1 (Or.inl rfl) (by decide) (by decide) (by decide)

/- ------------------------------------------------------------------ -/
/- Claim C9 about the listing cache.                                   -/
/- ------------------------------------------------------------------ -/

/-- C9 as stated is false on the code: when the first listing call fails
    (`catch` branch), nothing is cached, so the second request for the same
    path issues a second underlying call — two in total, not one. -/
theorem cache_single_call_cex :
    ¬ ((loadFiles (fun _ => none) [] "/a").calls
          + (loadFiles (fun _ => some []) (loadFiles (fun _ => none) [] "/a").cache "/a").calls = 1
        ∧ (loadFiles (fun _ => some []) (loadFiles (fun _ => none) [] "/a").cache "/a").files
          = (loadFiles (fun _ => none) [] "/a").files) := by
  decide

/-- C9 amended: provided the path is not already cached and the first
    underlying listing succeeds, two requests for the same exact path
    perform exactly one underlying call in total, and the second request
    returns the first listing unchanged — whatever the underlying
    directory now answers. -/
theorem cache_single_call (fs1 fs2 : String → Option (List FileItem))
    (c : List (String × List FileItem)) (p : String) (l : List FileItem)
    (hc : cacheGet c p = none) (h1 : fs1 p = some l) :
    (loadFiles fs1 c p).calls + (loadFiles fs2 (loadFiles fs1 c p).cache p).calls = 1
    ∧ (loadFiles fs2 (loadFiles fs1 c p).cache p).files = (loadFiles fs1 c p).files
    ∧ (loadFiles fs1 c p).files = l := by
  have e1 : loadFiles fs1 c p = ⟨l, cacheSet c p l, 1⟩ := by
    unfold loadFiles
    rw [hc, h1]
  have e2 : loadFiles fs2 (cacheSet c p l) p = ⟨l, cacheSet c p l, 0⟩ := by
    have hhit : cacheGet (cacheSet c p l) p = some l := by simp [cacheGet, cacheSet]
    unfold loadFiles
    rw [hhit]
  rw [e1]
  simp [e2]

/-- Closed witness for the amended C9. -/
theorem cache_single_call_witness :
    (loadFiles (fun _ => some []) [] "/a").calls
        + (loadFiles (fun _ => none) (loadFiles (fun _ => some []) [] "/a").cache "/a").calls = 1
    ∧ (loadFiles (fun _ => none) (loadFiles (fun _ => some []) [] "/a").cache "/a").files
        = (loadFiles (fun _ => some []) [] "/a").files
    ∧ (loadFiles (fun _ => some []) [] "/a").files = [] :=
  cache_single_call (fun _ => some []) (fun _ => none) [] "/a" [] rfl rfl

/- ------------------------------------------------------------------ -/
/- Claim C10 about the unindexed fallback mode.                        -/
/- ------------------------------------------------------------------ -/

/-- C10: when the query is non-empty after trimming and the recursive index
    is empty, the displayed collection is exactly the raw current listing
    filtered by case-insensitive name-substring match — no 50-entry
    truncation, folder entries included — and it can exceed 50 entries. -/
theorem fallback_listing (q : String) (files : List FileItem)
    (hq : trimmedEmpty q = false) :
    filteredFiles q files [] = (files.filter fun f => inclB (lowerL q) (lowerL f.name))
    ∧ ∃ (q2 : String) (files2 : List FileItem),
        trimmedEmpty q2 = false ∧ 50 < (filteredFiles q2 files2 []).length
        ∧ ∀ f ∈ files2, f.type = FType.folder := by
  constructor
  · simp [filteredFiles, hq]
  · refine ⟨"a", List.replicate 51 ⟨"a", FType.folder, none, none, none⟩,
      by decide, by decide, ?_⟩
    intro f hf
    rw [List.eq_of_mem_replicate hf]

/-- Closed witness for C10. -/
theorem fallback_listing_witness :
    filteredFiles "b" [] [] = ([].filter fun f => inclB (lowerL "b") (lowerL f.name))
    ∧ ∃ (q2 : String) (files2 : List FileItem),
        trimmedEmpty q2 = false ∧ 50 < (filteredFiles q2 files2 []).length
        ∧ ∀ f ∈ files2, f.type = FType.folder :=
  fallback_listing "b" [] (by decide)

end Sonet
